import Mathlib

/-!
Verification of the two shader-transcoding scripts of the v64tng repository:
`spv_to_constexpr.py` (word mode) and `generate_shader_headers.py` (byte mode).

Text is modelled as `List Char`; byte payloads as `List Nat` (with the typing
hypothesis `b < 256` where the claim needs it); the file system as a map from
file names to optional contents, and each script run as a `RunResult` recording
the file events (opens for read / write), the writes performed, and an optional
raised error.
-/

/-- The characters of a string literal, used to build modelled text. -/
def chars (s : String) : List Char := s.data

/-- Python `str.isspace` on the ASCII whitespace characters, as used by
`str.strip()` in `generate_shader_headers.py`. -/
def isSpaceB (c : Char) : Bool :=
  c = ' ' || c = '\t' || c = '\n' || c = '\r' || c = '\x0b' || c = '\x0c'

/-- Strip trailing whitespace, as the right half of Python `str.strip()`. -/
def pyStripRight (l : List Char) : List Char :=
  (l.reverse.dropWhile isSpaceB).reverse

/-- Python `str.strip()`: remove leading and trailing whitespace. -/
def pyStrip (l : List Char) : List Char :=
  pyStripRight (l.dropWhile isSpaceB)

/-- The lowercase hexadecimal digit for `n < 16`, as produced by Python's
`%x`-style formatting and `bytes.hex()`. -/
def hexDigitChar (n : Nat) : Char :=
  if n < 10 then Char.ofNat (48 + n) else Char.ofNat (87 + n)

/-- Two lowercase hexadecimal digits of a byte, as in `f"{b:02x}"` and
`bytes.hex()` (for `b < 256`). -/
def hex2 (b : Nat) : List Char :=
  [hexDigitChar (b / 16), hexDigitChar (b % 16)]

/-- Python `bytes.hex()`: two lowercase hex digits per byte, concatenated. -/
def bytesHex (l : List Nat) : List Char :=
  (l.map hex2).flatten

/-- The 4-byte groups `data[i:i+4]` for `i = 0, 4, 8, ...`, as traversed by the
loop `for i in range(0, len(data), 4)` in `spv_to_constexpr`.  The final group
is shorter when the length is not a multiple of 4. -/
def chunks4 : List Nat → List (List Nat)
  | [] => []
  | [a] => [[a]]
  | [a, b] => [[a, b]]
  | [a, b, c] => [[a, b, c]]
  | a :: b :: c :: d :: rest => [a, b, c, d] :: chunks4 rest

/-- One body line written by `spv_to_constexpr`:
`f"    0x{word.hex()},\n"` where `word = data[i:i+4][::-1]`. -/
def wordLine (chunk : List Nat) : List Char :=
  chars "    0x" ++ bytesHex chunk.reverse ++ chars ",\n"

/-- All body lines of the word-mode output, in loop order. -/
def wordLines (data : List Nat) : List (List Char) :=
  (chunks4 data).map wordLine

/-- The hexadecimal token emitted for each 4-byte group (the part between `0x`
and the trailing comma): `data[i:i+4][::-1].hex()`. -/
def wordTokens (data : List Nat) : List (List Char) :=
  (chunks4 data).map (fun c => bytesHex c.reverse)

/-- The full text written by `spv_to_constexpr` to the output file: header
line, one line per 4-byte group, closing `};` line. -/
def wordOutput (var_name : List Char) (data : List Nat) : List Char :=
  chars "constexpr uint32_t " ++ var_name ++ chars "[] = \x7b\n"
    ++ (wordLines data).flatten ++ chars "\x7d;\n"

/-- One byte-mode token `f"0x{b:02x}"` of `generate_header`. -/
def byteToken (b : Nat) : List Char :=
  chars "0x" ++ hex2 b

/-- `', '.join([f"0x{b:02x}" for b in spv])` from `generate_header`. -/
def spv_hex_array (spv : List Nat) : List Char :=
  List.intercalate (chars ", ") (spv.map byteToken)

/-- The f-string block `header_content` of `generate_header`, before
stripping: newline, indented comment line, indented token line, trailing
indentation. -/
def header_content (shader_name : List Char) (spv : List Nat) : List Char :=
  chars "\n    // " ++ shader_name ++ chars ".h\n    "
    ++ spv_hex_array spv ++ chars "\n    "

/-- The text written by `generate_header` to the header file:
`header_content.strip()`. -/
def headerText (shader_name : List Char) (spv : List Nat) : List Char :=
  pyStrip (header_content shader_name spv)

/-- The numeric value of a lowercase hexadecimal digit character, used to
parse emitted tokens back (round-trip claims). -/
def hexVal (c : Char) : Nat :=
  if 97 ≤ c.toNat then c.toNat - 87 else c.toNat - 48

/-- Parse two hexadecimal digit characters back to one byte. -/
def parseHexPair (c₁ c₂ : Char) : Nat :=
  hexVal c₁ * 16 + hexVal c₂

/-- Parse a string of hexadecimal digit pairs back to the byte sequence. -/
def parseHexBytes : List Char → List Nat
  | c₁ :: c₂ :: rest => parseHexPair c₁ c₂ :: parseHexBytes rest
  | _ => []

/-- Whether a character is a lowercase hexadecimal digit (`[0-9a-f]`). -/
def isLowerHexDigit (c : Char) : Bool :=
  (('0' ≤ c) && (c ≤ '9')) || (('a' ≤ c) && (c ≤ 'f'))

/-- The body-line format claimed for word mode: 4 spaces, `0x`, exactly 8
lowercase hexadecimal digits, a comma, newline. -/
def wordBodyLineFormat (ln : List Char) : Prop :=
  ∃ tok, ln = chars "    0x" ++ tok ++ chars ",\n"
    ∧ tok.length = 8 ∧ ∀ c ∈ tok, isLowerHexDigit c = true

/-- A file-system event performed by a run: opening a file for reading or
for (truncating) writing. -/
inductive FileEvent where
  | openRead : List Char → FileEvent
  | openWrite : List Char → FileEvent
deriving DecidableEq

/-- The observable outcome of running one transcoder: the file events in
order, the `(file name, contents)` writes performed, and the name of the file
whose failed open raised an error, if any. -/
structure RunResult where
  events : List FileEvent
  writes : List (List Char × List Char)
  error : Option (List Char)
deriving DecidableEq

/-- A file system: maps a file name to its contents (bytes), or `none` if
opening it for reading fails. -/
def Fs : Type := List Char → Option (List Nat)

/-- The function `spv_to_constexpr(input_filename, output_filename, var_name)`:
open and read the input in full; then open the output for writing and write
the word-mode declaration.  If the input cannot be opened the error propagates
and the output file is never opened. -/
def spv_to_constexpr (fs : Fs) (input_filename output_filename var_name : List Char) :
    RunResult :=
  match fs input_filename with
  | none => ⟨[.openRead input_filename], [], some input_filename⟩
  | some data =>
      ⟨[.openRead input_filename, .openWrite output_filename],
       [(output_filename, wordOutput var_name data)], none⟩

/-- The function `generate_header(shader_name)`: read `shaders/<name>.spv`,
then write `shaders/<name>.h` with the stripped byte-mode block.  A failed
read raises and the header file is never opened. -/
def generate_header (fs : Fs) (shader_name : List Char) : RunResult :=
  let spv_filename := chars "shaders/" ++ shader_name ++ chars ".spv"
  let header_filename := chars "shaders/" ++ shader_name ++ chars ".h"
  match fs spv_filename with
  | none => ⟨[.openRead spv_filename], [], some spv_filename⟩
  | some spv =>
      ⟨[.openRead spv_filename, .openWrite header_filename],
       [(header_filename, headerText shader_name spv)], none⟩

/-- The module-level loop `for shader in shaders: generate_header(shader)`:
run the names in order, stopping at the first raised error. -/
def runBatch (fs : Fs) : List (List Char) → RunResult
  | [] => ⟨[], [], none⟩
  | n :: rest =>
      let r := generate_header fs n
      match r.error with
      | some e => ⟨r.events, r.writes, some e⟩
      | none =>
          let rs := runBatch fs rest
          ⟨r.events ++ rs.events, r.writes ++ rs.writes, rs.error⟩

/-- The hardcoded list `shaders = ["vert", "frag"]`. -/
def shaders : List (List Char) := [chars "vert", chars "frag"]

/-- The whole batch driver `generate_shader_headers.py`. -/
def batchMain (fs : Fs) : RunResult :=
  runBatch fs shaders

/-- The usage message printed by `spv_to_constexpr.py` on too few arguments. -/
def usageString : List Char :=
  chars "Usage: python spv_to_constexpr.py <input.spv> <output.h> <variable_name>"

/-- Outcome of the word-mode CLI entry point: the transcoder run (empty when
it never runs), the lines printed to stdout, and the exit code. -/
structure MainResult where
  run : RunResult
  stdout : List (List Char)
  exitCode : Nat
deriving DecidableEq

/-- The `__main__` block of `spv_to_constexpr.py`: with `len(sys.argv) < 4`
(fewer than 3 positional arguments after the script name) it prints the usage
string and exits with code 1, touching no file; otherwise it runs
`spv_to_constexpr(sys.argv[1], sys.argv[2], sys.argv[3])`. -/
def wordModeMain (fs : Fs) (argv : List (List Char)) : MainResult :=
  if argv.length < 4 then
    ⟨⟨[], [], none⟩, [usageString], 1⟩
  else
    ⟨spv_to_constexpr fs (argv.getD 1 []) (argv.getD 2 []) (argv.getD 3 []), [], 0⟩

/-- C9: for input bytes `[0xDE, 0xAD, 0xBE, 0xEF]` and variable name `foo`,
the word-mode transcoder writes exactly
`constexpr uint32_t foo[] = {\n    0xefbeadde,\n};\n`. -/
theorem C9_dead_beef_scenario :
    wordOutput (chars "foo") [0xDE, 0xAD, 0xBE, 0xEF] =
      chars "constexpr uint32_t foo[] = \x7b\n    0xefbeadde,\n\x7d;\n" := by
  decide

/-- Each hex digit character decodes back to its value. -/
theorem hexVal_hexDigitChar : ∀ n < 16, hexVal (hexDigitChar n) = n := by
  decide

/-- Each hex digit character is a lowercase hexadecimal digit. -/
theorem isLowerHexDigit_hexDigitChar : ∀ n < 16, isLowerHexDigit (hexDigitChar n) = true := by
  decide

/-- No hex digit character is whitespace. -/
theorem not_isSpaceB_hexDigitChar : ∀ n < 16, isSpaceB (hexDigitChar n) = false := by
  decide

/-- Parsing the two hex digits of a byte recovers the byte. -/
theorem parseHexPair_hex2 (b : Nat) (h : b < 256) :
    parseHexPair (hexDigitChar (b / 16)) (hexDigitChar (b % 16)) = b := by
  have h₁ : hexVal (hexDigitChar (b / 16)) = b / 16 :=
    hexVal_hexDigitChar _ (by omega)
  have h₂ : hexVal (hexDigitChar (b % 16)) = b % 16 :=
    hexVal_hexDigitChar _ (by omega)
  unfold parseHexPair
  rw [h₁, h₂]
  omega

/-- Parsing `bytes.hex()` output recovers the bytes. -/
theorem parseHexBytes_bytesHex (l : List Nat) (h : ∀ b ∈ l, b < 256) :
    parseHexBytes (bytesHex l) = l := by
  induction l with
  | nil => rfl
  | cons b t ih =>
      have hb : b < 256 := h b (List.mem_cons_self b t)
      have ht : ∀ x ∈ t, x < 256 := fun x hx => h x (List.mem_cons_of_mem b hx)
      simp only [bytesHex, List.map_cons, List.flatten_cons, hex2,
        List.cons_append, List.nil_append]
      show parseHexPair (hexDigitChar (b / 16)) (hexDigitChar (b % 16))
          :: parseHexBytes ((t.map hex2).flatten) = b :: t
      rw [parseHexPair_hex2 b hb]
      exact congrArg (b :: ·) (ih ht)

/-- `bytes.hex()` has two characters per byte. -/
theorem bytesHex_length (l : List Nat) : (bytesHex l).length = 2 * l.length := by
  induction l with
  | nil => rfl
  | cons b t ih =>
      simp only [bytesHex, List.map_cons, List.flatten_cons, List.length_append,
        List.length_cons] at *
      simp [hex2, ih]
      omega

/-- Every character of `bytes.hex()` output is a lowercase hex digit. -/
theorem mem_bytesHex_isLowerHex (l : List Nat) (h : ∀ b ∈ l, b < 256) :
    ∀ c ∈ bytesHex l, isLowerHexDigit c = true := by
  induction l with
  | nil => intro c hc; simp [bytesHex] at hc
  | cons b t ih =>
      intro c hc
      have hb : b < 256 := h b (List.mem_cons_self b t)
      simp only [bytesHex, List.map_cons, List.flatten_cons, List.mem_append] at hc
      rcases hc with hc | hc
      · simp only [hex2, List.mem_cons, List.not_mem_nil, or_false] at hc
        rcases hc with rfl | rfl
        · exact isLowerHexDigit_hexDigitChar _ (by omega)
        · exact isLowerHexDigit_hexDigitChar _ (by omega)
      · exact ih (fun x hx => h x (List.mem_cons_of_mem b hx)) c hc

/-- The 4-byte groups concatenate back to the original data. -/
theorem chunks4_flatten (l : List Nat) : (chunks4 l).flatten = l := by
  induction l using chunks4.induct with
  | case1 => rfl
  | case2 a => rfl
  | case3 a b => rfl
  | case4 a b c => rfl
  | case5 a b c d rest ih => simp [chunks4, ih]

/-- There are `ceil(len/4)` groups. -/
theorem chunks4_length (l : List Nat) : (chunks4 l).length = (l.length + 3) / 4 := by
  induction l using chunks4.induct with
  | case1 => rfl
  | case2 a => simp [chunks4]
  | case3 a b => simp [chunks4]
  | case4 a b c => simp [chunks4]
  | case5 a b c d rest ih =>
      simp only [chunks4, List.length_cons, ih]
      omega

/-- Every byte of a group is a byte of the data. -/
theorem chunks4_mem_subset (l : List Nat) :
    ∀ c ∈ chunks4 l, ∀ b ∈ c, b ∈ l := by
  induction l using chunks4.induct with
  | case1 => intro c hc; simp [chunks4] at hc
  | case2 a => intro c hc; simp [chunks4] at hc; simp [hc]
  | case3 a b => intro c hc; simp [chunks4] at hc; simp [hc]
  | case4 a b c => intro c' hc; simp [chunks4] at hc; simp [hc]
  | case5 a b c d rest ih =>
      intro c' hc'
      simp only [chunks4, List.mem_cons] at hc'
      rcases hc' with rfl | hc'
      · intro x hx
        simp only [List.mem_cons, List.not_mem_nil, or_false] at hx
        rcases hx with rfl | rfl | rfl | rfl <;> simp
      · intro x hx
        have := ih c' hc' x hx
        simp [this]

/-- When the length is a multiple of 4, every group has exactly 4 bytes. -/
theorem chunks4_full (l : List Nat) (h : l.length % 4 = 0) :
    ∀ c ∈ chunks4 l, c.length = 4 := by
  induction l using chunks4.induct with
  | case1 => intro c hc; simp [chunks4] at hc
  | case2 a => simp at h
  | case3 a b => simp at h
  | case4 a b c => simp at h
  | case5 a b c d rest ih =>
      intro c' hc'
      simp only [chunks4, List.mem_cons] at hc'
      rcases hc' with rfl | hc'
      · rfl
      · refine ih ?_ c' hc'
        simp only [List.length_cons] at h
        omega

/-- C1: for payloads whose length is a multiple of 4, parsing each emitted
word-mode token back to a 4-byte group and byte-reversing each group
reconstructs the payload exactly. -/
theorem C1_word_roundtrip (S : List Nat) (h : ∀ b ∈ S, b < 256)
    (h4 : S.length % 4 = 0) :
    ((wordTokens S).map (fun t => (parseHexBytes t).reverse)).flatten = S
    ∧ ∀ t ∈ wordTokens S, (parseHexBytes t).length = 4 := by
  have key : ∀ c ∈ chunks4 S, parseHexBytes (bytesHex c.reverse) = c.reverse := by
    intro c hc
    refine parseHexBytes_bytesHex c.reverse ?_
    intro b hb
    exact h b (chunks4_mem_subset S c hc b (List.mem_reverse.mp hb))
  constructor
  · unfold wordTokens
    rw [List.map_map]
    have : List.map ((fun t => (parseHexBytes t).reverse) ∘ fun c => bytesHex c.reverse)
        (chunks4 S) = List.map id (chunks4 S) := by
      refine List.map_congr_left ?_
      intro c hc
      simp only [Function.comp_apply, id_eq, key c hc, List.reverse_reverse]
    rw [this, List.map_id, chunks4_flatten]
  · intro t ht
    unfold wordTokens at ht
    rcases List.mem_map.mp ht with ⟨c, hc, rfl⟩
    rw [key c hc, List.length_reverse]
    exact chunks4_full S h4 c hc

/-- C1 witness: the round-trip at the concrete payload `[0xDE, 0xAD, 0xBE, 0xEF]`. -/
theorem C1_word_roundtrip_witness :
    ((wordTokens [0xDE, 0xAD, 0xBE, 0xEF]).map
        (fun t => (parseHexBytes t).reverse)).flatten = [0xDE, 0xAD, 0xBE, 0xEF]
    ∧ ∀ t ∈ wordTokens [0xDE, 0xAD, 0xBE, 0xEF], (parseHexBytes t).length = 4 :=
  C1_word_roundtrip [0xDE, 0xAD, 0xBE, 0xEF] (by decide) (by decide)

/-- A nonempty payload yields at least one group. -/
theorem chunks4_ne_nil (l : List Nat) (h : l ≠ []) : chunks4 l ≠ [] := by
  induction l using chunks4.induct with
  | case1 => simp at h
  | case2 a => simp [chunks4]
  | case3 a b => simp [chunks4]
  | case4 a b c => simp [chunks4]
  | case5 a b c d rest ih => simp [chunks4]

/-- The last group holds exactly the bytes past the last full multiple of 4
that still starts a group. -/
theorem chunks4_getLast (l : List Nat) :
    l ≠ [] → (chunks4 l).getLast? = some (l.drop (4 * ((l.length - 1) / 4))) := by
  induction l using chunks4.induct with
  | case1 => intro h; simp at h
  | case2 a => intro _; simp [chunks4]
  | case3 a b => intro _; simp [chunks4]
  | case4 a b c => intro _; simp [chunks4]
  | case5 a b c d rest ih =>
      intro _
      by_cases hr : rest = []
      · subst hr; simp [chunks4]
      · have ihh := ih hr
        have hne := chunks4_ne_nil rest hr
        obtain ⟨x, xs, hx⟩ := List.exists_cons_of_ne_nil hne
        have hlen : 1 ≤ rest.length := by
          cases rest with
          | nil => exact absurd rfl hr
          | cons y ys => simp
        have hidx : 4 * (((a :: b :: c :: d :: rest).length - 1) / 4)
            = 4 + 4 * ((rest.length - 1) / 4) := by
          simp only [List.length_cons]
          omega
        calc (chunks4 (a :: b :: c :: d :: rest)).getLast?
            = ([a, b, c, d] :: x :: xs).getLast? := by rw [chunks4, hx]
          _ = (x :: xs).getLast? := List.getLast?_cons_cons
          _ = some (rest.drop (4 * ((rest.length - 1) / 4))) := by rw [← hx, ihh]
          _ = some ((a :: b :: c :: d :: rest).drop
                (4 * (((a :: b :: c :: d :: rest).length - 1) / 4))) := by
              rw [hidx, ← List.drop_drop]
              rfl

/-- C3: the token count is `len(payload)` in byte mode and `ceil(len/4)` in
word mode, and when the length is not a multiple of 4 the final word-mode
token is the hex of the byte-reversed remaining bytes only, with
`2 * (len mod 4)` digits rather than a zero-padded 8. -/
theorem C3_token_counts (data : List Nat) :
    (data.map byteToken).length = data.length
    ∧ (wordTokens data).length = (data.length + 3) / 4
    ∧ (data.length % 4 ≠ 0 →
        (wordTokens data).getLast? =
          some (bytesHex ((data.drop (4 * (data.length / 4))).reverse))
        ∧ (bytesHex ((data.drop (4 * (data.length / 4))).reverse)).length
            = 2 * (data.length % 4)) := by
  refine ⟨by simp, ?_, ?_⟩
  · unfold wordTokens
    rw [List.length_map, chunks4_length]
  · intro hmod
    have hne : data ≠ [] := by
      intro h
      subst h
      simp at hmod
    have hidx : 4 * ((data.length - 1) / 4) = 4 * (data.length / 4) := by omega
    constructor
    · unfold wordTokens
      rw [List.getLast?_map, chunks4_getLast data hne, hidx]
      rfl
    · rw [bytesHex_length, List.length_reverse, List.length_drop]
      omega

/-- C3 witness: the counts at the concrete 1-byte payload `[0x01]`. -/
theorem C3_token_counts_witness :
    (([1] : List Nat).map byteToken).length = ([1] : List Nat).length
    ∧ (wordTokens [1]).length = (([1] : List Nat).length + 3) / 4
    ∧ ((wordTokens [1]).getLast? =
        some (bytesHex ((([1] : List Nat).drop
          (4 * (([1] : List Nat).length / 4))).reverse))
      ∧ (bytesHex ((([1] : List Nat).drop
          (4 * (([1] : List Nat).length / 4))).reverse)).length
          = 2 * (([1] : List Nat).length % 4)) := by
  have h := C3_token_counts [1]
  exact ⟨h.1, h.2.1, h.2.2 (by decide)⟩

/-- A character of `', '.join(xs)` is in the separator or in one of the
joined pieces. -/
theorem mem_intercalate {α : Type} {c : α} (s : List α) (xs : List (List α))
    (h : c ∈ List.intercalate s xs) : c ∈ s ∨ ∃ x ∈ xs, c ∈ x := by
  induction xs with
  | nil => simp [List.intercalate] at h
  | cons x xs ih =>
      cases xs with
      | nil =>
          simp only [List.intercalate, List.intersperse, List.flatten_cons,
            List.flatten_nil, List.append_nil] at h
          exact Or.inr ⟨x, by simp, h⟩
      | cons y ys =>
          have hx : List.intercalate s (x :: y :: ys)
              = x ++ s ++ List.intercalate s (y :: ys) := by
            simp [List.intercalate, List.intersperse]
          rw [hx] at h
          simp only [List.mem_append] at h
          rcases h with (h | h) | h
          · exact Or.inr ⟨x, by simp, h⟩
          · exact Or.inl h
          · rcases ih h with h' | ⟨t, ht, hct⟩
            · exact Or.inl h'
            · exact Or.inr ⟨t, List.mem_cons_of_mem x ht, hct⟩

/-- A lowercase hexadecimal digit is not a newline. -/
theorem isLowerHexDigit_ne_newline (c : Char) (h : isLowerHexDigit c = true) :
    c ≠ '\n' := by
  intro he
  rw [he] at h
  exact absurd h (by decide)

/-- C4: byte mode emits exactly `len(S)` tokens, each of the shape
`0x` + two lowercase hex digits, joined with `, ` into a single
newline-free line. -/
theorem C4_byte_tokens (S : List Nat) (h : ∀ b ∈ S, b < 256) :
    (S.map byteToken).length = S.length
    ∧ (∀ t ∈ S.map byteToken, ∃ d₁ d₂, t = ['0', 'x', d₁, d₂]
        ∧ isLowerHexDigit d₁ = true ∧ isLowerHexDigit d₂ = true)
    ∧ spv_hex_array S = List.intercalate (chars ", ") (S.map byteToken)
    ∧ ∀ c ∈ spv_hex_array S, c ≠ '\n' := by
  refine ⟨by simp, ?_, rfl, ?_⟩
  · intro t ht
    rcases List.mem_map.mp ht with ⟨b, hb, rfl⟩
    refine ⟨hexDigitChar (b / 16), hexDigitChar (b % 16), rfl, ?_, ?_⟩
    · have := h b hb
      exact isLowerHexDigit_hexDigitChar _ (by omega)
    · exact isLowerHexDigit_hexDigitChar _ (by omega)
  · intro c hc
    rcases mem_intercalate _ _ hc with hs | ⟨t, ht, hct⟩
    · have hsep : chars ", " = [',', ' '] := rfl
      rw [hsep] at hs
      simp only [List.mem_cons, List.not_mem_nil, or_false] at hs
      rcases hs with rfl | rfl <;> decide
    · rcases List.mem_map.mp ht with ⟨b, hb, rfl⟩
      have hshape : byteToken b = ['0', 'x', hexDigitChar (b / 16), hexDigitChar (b % 16)] := rfl
      rw [hshape] at hct
      simp only [List.mem_cons, List.not_mem_nil, or_false] at hct
      have hb' := h b hb
      rcases hct with rfl | rfl | rfl | rfl
      · decide
      · decide
      · exact isLowerHexDigit_ne_newline _ (isLowerHexDigit_hexDigitChar _ (by omega))
      · exact isLowerHexDigit_ne_newline _ (isLowerHexDigit_hexDigitChar _ (by omega))

/-- C4 witness: the byte-mode token facts at the concrete payload
`[0x01, 0x02]`. -/
theorem C4_byte_tokens_witness :
    (([1, 2] : List Nat).map byteToken).length = ([1, 2] : List Nat).length
    ∧ (∀ t ∈ ([1, 2] : List Nat).map byteToken, ∃ d₁ d₂, t = ['0', 'x', d₁, d₂]
        ∧ isLowerHexDigit d₁ = true ∧ isLowerHexDigit d₂ = true)
    ∧ spv_hex_array [1, 2] = List.intercalate (chars ", ") (([1, 2] : List Nat).map byteToken)
    ∧ ∀ c ∈ spv_hex_array [1, 2], c ≠ '\n' :=
  C4_byte_tokens [1, 2] (by decide)

/-- C2 amended: when the payload length is a multiple of 4, the word-mode
output is the header line, the body lines, and `};` plus final newline, and
every body line is 4 spaces, `0x`, exactly 8 lowercase hex digits, and a
trailing comma. -/
theorem C2_word_format (var_name : List Char) (data : List Nat)
    (h : ∀ b ∈ data, b < 256) (h4 : data.length % 4 = 0) :
    wordOutput var_name data =
      (chars "constexpr uint32_t " ++ var_name ++ chars "[] = \x7b") ++ chars "\n"
        ++ (wordLines data).flatten ++ (chars "\x7d;" ++ chars "\n")
    ∧ ∀ ln ∈ wordLines data, wordBodyLineFormat ln := by
  constructor
  · unfold wordOutput
    have h1 : chars "[] = \x7b\n" = chars "[] = \x7b" ++ chars "\n" := rfl
    have h2 : chars "\x7d;\n" = chars "\x7d;" ++ chars "\n" := rfl
    rw [h1, h2]
    simp [List.append_assoc]
  · intro ln hln
    rcases List.mem_map.mp hln with ⟨c, hc, rfl⟩
    refine ⟨bytesHex c.reverse, rfl, ?_, ?_⟩
    · rw [bytesHex_length, List.length_reverse, chunks4_full data h4 c hc]
    · intro ch hch
      refine mem_bytesHex_isLowerHex c.reverse ?_ ch hch
      intro b hb
      exact h b (chunks4_mem_subset data c hc b (List.mem_reverse.mp hb))

/-- C2 witness: the amended format at variable `v` and payload
`[0xDE, 0xAD, 0xBE, 0xEF]`. -/
theorem C2_word_format_witness :
    wordOutput (chars "v") [0xDE, 0xAD, 0xBE, 0xEF] =
      (chars "constexpr uint32_t " ++ chars "v" ++ chars "[] = \x7b") ++ chars "\n"
        ++ (wordLines [0xDE, 0xAD, 0xBE, 0xEF]).flatten ++ (chars "\x7d;" ++ chars "\n")
    ∧ ∀ ln ∈ wordLines [0xDE, 0xAD, 0xBE, 0xEF], wordBodyLineFormat ln :=
  C2_word_format (chars "v") [0xDE, 0xAD, 0xBE, 0xEF] (by decide) (by decide)

/-- C2 counterexample: at the 1-byte payload `[0x01]` the single body line
carries the token `01`, which has 2 hex digits, not 8, so the claimed format
fails for payloads whose length is not a multiple of 4. -/
theorem C2_short_token_cex :
    wordLines [1] = [chars "    0x" ++ chars "01" ++ chars ",\n"]
    ∧ ¬ wordBodyLineFormat (chars "    0x" ++ chars "01" ++ chars ",\n") := by
  constructor
  · decide
  · rintro ⟨tok, heq, hlen, _⟩
    have hl := congrArg List.length heq
    simp only [List.length_append] at hl
    have h6 : (chars "    0x").length = 6 := rfl
    have h2 : (chars ",\n").length = 2 := rfl
    have h2' : (chars "01").length = 2 := rfl
    rw [h6, h2, h2', hlen] at hl
    omega

/-- Dropping a whitespace prefix skips an all-whitespace block. -/
theorem dropWhile_append_all (p : Char → Bool) (a b : List Char)
    (h : ∀ c ∈ a, p c = true) :
    List.dropWhile p (a ++ b) = List.dropWhile p b := by
  induction a with
  | nil => rfl
  | cons x xs ih =>
      rw [List.cons_append, List.dropWhile_cons, if_pos (h x (List.mem_cons_self x xs))]
      exact ih (fun c hc => h c (List.mem_cons_of_mem x hc))

/-- Right-stripping removes a trailing all-whitespace block. -/
theorem pyStripRight_append_space (x ws : List Char)
    (h : ∀ c ∈ ws, isSpaceB c = true) :
    pyStripRight (x ++ ws) = pyStripRight x := by
  unfold pyStripRight
  rw [List.reverse_append, dropWhile_append_all]
  intro c hc
  exact h c (List.mem_reverse.mp hc)

/-- Right-stripping is the identity on text ending in a non-whitespace
character. -/
theorem pyStripRight_concat_nonspace (x : List Char) (d : Char)
    (h : isSpaceB d = false) :
    pyStripRight (x ++ [d]) = x ++ [d] := by
  unfold pyStripRight
  rw [List.reverse_append]
  show (List.dropWhile isSpaceB (d :: x.reverse)).reverse = x ++ [d]
  rw [List.dropWhile_cons, if_neg (by simp [h]), List.reverse_cons, List.reverse_reverse]

/-- `', '.join` of a nonempty list extended on the right. -/
theorem intercalate_concat_ne {α : Type} (s y : List α) :
    ∀ xs : List (List α), xs ≠ [] →
      List.intercalate s (xs ++ [y]) = List.intercalate s xs ++ s ++ y := by
  intro xs
  induction xs with
  | nil => intro h; exact absurd rfl h
  | cons x xs ih =>
      intro _
      cases xs with
      | nil => simp [List.intercalate, List.intersperse]
      | cons z zs =>
          have h2 : List.intercalate s (x :: z :: (zs ++ [y]))
              = x ++ s ++ List.intercalate s (z :: (zs ++ [y])) := by
            simp [List.intercalate, List.intersperse]
          have h3 : List.intercalate s (x :: z :: zs)
              = x ++ s ++ List.intercalate s (z :: zs) := by
            simp [List.intercalate, List.intersperse]
          show List.intercalate s (x :: z :: (zs ++ [y])) = _
          rw [h2]
          have h4 : z :: (zs ++ [y]) = (z :: zs) ++ [y] := rfl
          rw [h4, ih (by simp), h3]
          simp [List.append_assoc]

/-- A nonempty byte-mode token line ends in a hexadecimal digit character. -/
theorem spv_hex_array_last (S : List Nat) (h : S ≠ []) :
    ∃ front n, n < 16 ∧ spv_hex_array S = front ++ [hexDigitChar n] := by
  rcases List.eq_nil_or_concat S with rfl | ⟨L, b, rfl⟩
  · exact absurd rfl h
  · by_cases hL : L = []
    · subst hL
      exact ⟨['0', 'x', hexDigitChar (b / 16)], b % 16, by omega, rfl⟩
    · refine ⟨spv_hex_array L ++ chars ", " ++ ['0', 'x', hexDigitChar (b / 16)],
        b % 16, by omega, ?_⟩
      have hmap : (L.concat b).map byteToken = L.map byteToken ++ [byteToken b] := by
        simp [List.concat_eq_append]
      have hmne : L.map byteToken ≠ [] := by simp [hL]
      show List.intercalate (chars ", ") ((L.concat b).map byteToken) = _
      rw [hmap, intercalate_concat_ne _ _ _ hmne]
      have hbt : byteToken b = ['0', 'x', hexDigitChar (b / 16)] ++ [hexDigitChar (b % 16)] := rfl
      rw [hbt]
      simp [spv_hex_array, List.append_assoc]

/-- Leading whitespace of the f-string block stops at the `//` comment. -/
theorem dropWhile_header_content (name arr : List Char) :
    List.dropWhile isSpaceB
        (chars "\n    // " ++ name ++ chars ".h\n    " ++ arr ++ chars "\n    ")
      = chars "// " ++ name ++ chars ".h\n    " ++ arr ++ chars "\n    " := rfl

/-- Text starting at the `//` comment has no leading whitespace to strip. -/
theorem dropWhile_comment (name arr : List Char) :
    List.dropWhile isSpaceB (chars "// " ++ name ++ chars ".h\n    " ++ arr)
      = chars "// " ++ name ++ chars ".h\n    " ++ arr := rfl

/-- C5: the byte-mode header file is the `// <name>.h` comment line and the
token line, i.e. the block with its leading and trailing whitespace stripped;
for a nonempty payload that is exactly the comment line, a newline, and the
4-space-indented token line. -/
theorem C5_header_file_format (name : List Char) (spv : List Nat) :
    headerText name spv
      = pyStrip (chars "// " ++ name ++ chars ".h\n    " ++ spv_hex_array spv)
    ∧ (spv ≠ [] →
        headerText name spv
          = chars "// " ++ name ++ chars ".h" ++ chars "\n"
              ++ chars "    " ++ spv_hex_array spv) := by
  have harr : headerText name spv
      = pyStripRight (chars "// " ++ name ++ chars ".h\n    " ++ spv_hex_array spv) := by
    unfold headerText pyStrip header_content
    rw [dropWhile_header_content]
    exact pyStripRight_append_space _ _ (by decide)
  constructor
  · rw [harr]
    unfold pyStrip
    rw [dropWhile_comment]
  · intro hne
    obtain ⟨front, n, hn, harr2⟩ := spv_hex_array_last spv hne
    rw [harr, harr2, ← List.append_assoc,
      pyStripRight_concat_nonspace _ _ (not_isSpaceB_hexDigitChar n hn)]
    have hsplit : chars ".h\n    " = chars ".h" ++ chars "\n" ++ chars "    " := rfl
    rw [hsplit]
    simp [List.append_assoc]

/-- C5 witness: the header text at name `vert` and payload `[0x01, 0x02]`. -/
theorem C5_header_file_format_witness :
    headerText (chars "vert") [1, 2]
      = pyStrip (chars "// " ++ chars "vert" ++ chars ".h\n    "
          ++ spv_hex_array [1, 2])
    ∧ headerText (chars "vert") [1, 2]
      = chars "// " ++ chars "vert" ++ chars ".h" ++ chars "\n"
          ++ chars "    " ++ spv_hex_array [1, 2] := by
  have h := C5_header_file_format (chars "vert") [1, 2]
  exact ⟨h.1, h.2 (by decide)⟩

/-- C6: invoked with fewer than 3 positional arguments the word-mode CLI
prints the usage message, exits with code 1, performs no file event and no
write. -/
theorem C6_usage_error (fs : Fs) (script : List Char) (rest : List (List Char))
    (h : rest.length < 3) :
    wordModeMain fs (script :: rest) = ⟨⟨[], [], none⟩, [usageString], 1⟩ := by
  unfold wordModeMain
  rw [if_pos]
  simp only [List.length_cons]
  omega

/-- C6 witness: the CLI at 1 positional argument on an empty file system. -/
theorem C6_usage_error_witness :
    wordModeMain (fun _ => none) [chars "spv_to_constexpr.py", chars "a.spv"]
      = ⟨⟨[], [], none⟩, [usageString], 1⟩ :=
  C6_usage_error (fun _ => none) (chars "spv_to_constexpr.py") [chars "a.spv"]
    (by decide)

/-- C7: the batch driver reads `vert` then `frag` in that order; a failed
read of `vert.spv` aborts the batch with no write and no access to `frag`,
and a failed read of `frag.spv` leaves only the `vert` write. -/
theorem C7_batch_order (fs : Fs) :
    (∀ v w, fs (chars "shaders/vert.spv") = some v →
        fs (chars "shaders/frag.spv") = some w →
        batchMain fs = ⟨[FileEvent.openRead (chars "shaders/vert.spv"),
                         FileEvent.openWrite (chars "shaders/vert.h"),
                         FileEvent.openRead (chars "shaders/frag.spv"),
                         FileEvent.openWrite (chars "shaders/frag.h")],
                        [(chars "shaders/vert.h", headerText (chars "vert") v),
                         (chars "shaders/frag.h", headerText (chars "frag") w)],
                        none⟩)
    ∧ (fs (chars "shaders/vert.spv") = none →
        batchMain fs = ⟨[FileEvent.openRead (chars "shaders/vert.spv")], [],
                        some (chars "shaders/vert.spv")⟩)
    ∧ (∀ v, fs (chars "shaders/vert.spv") = some v →
        fs (chars "shaders/frag.spv") = none →
        batchMain fs = ⟨[FileEvent.openRead (chars "shaders/vert.spv"),
                         FileEvent.openWrite (chars "shaders/vert.h"),
                         FileEvent.openRead (chars "shaders/frag.spv")],
                        [(chars "shaders/vert.h", headerText (chars "vert") v)],
                        some (chars "shaders/frag.spv")⟩) := by
  have e₁ : chars "shaders/" ++ chars "vert" ++ chars ".spv"
      = chars "shaders/vert.spv" := rfl
  have e₂ : chars "shaders/" ++ chars "vert" ++ chars ".h"
      = chars "shaders/vert.h" := rfl
  have e₃ : chars "shaders/" ++ chars "frag" ++ chars ".spv"
      = chars "shaders/frag.spv" := rfl
  have e₄ : chars "shaders/" ++ chars "frag" ++ chars ".h"
      = chars "shaders/frag.h" := rfl
  refine ⟨?_, ?_, ?_⟩
  · intro v w hv hw
    simp [batchMain, shaders, runBatch, generate_header, e₁, e₂, e₃, e₄, hv, hw]
  · intro hv
    simp only [batchMain, shaders, runBatch, generate_header, e₁, e₂, e₃, e₄, hv]
  · intro v hv hw
    simp only [batchMain, shaders, runBatch, generate_header, e₁, e₂, e₃, e₄, hv, hw]
    rfl

/-- C7 witness: the batch on a file system missing both inputs stops at
`vert` with nothing written. -/
theorem C7_batch_order_witness :
    batchMain (fun _ => none)
      = ⟨[FileEvent.openRead (chars "shaders/vert.spv")], [],
         some (chars "shaders/vert.spv")⟩ :=
  (C7_batch_order (fun _ => none)).2.1 rfl

/-- C8: both transcoders are deterministic functions of their file system and
arguments: runs on identical inputs give identical results, in particular
byte-identical written file contents. -/
theorem C8_deterministic (fs₁ fs₂ : Fs)
    (i₁ o₁ v₁ i₂ o₂ v₂ n₁ n₂ : List Char)
    (hfs : ∀ p, fs₁ p = fs₂ p) (hi : i₁ = i₂) (ho : o₁ = o₂) (hv : v₁ = v₂)
    (hn : n₁ = n₂) :
    spv_to_constexpr fs₁ i₁ o₁ v₁ = spv_to_constexpr fs₂ i₂ o₂ v₂
    ∧ generate_header fs₁ n₁ = generate_header fs₂ n₂ := by
  have hf : fs₁ = fs₂ := funext hfs
  subst hf hi ho hv hn
  exact ⟨rfl, rfl⟩

/-- C8 witness: two runs with the same concrete file system and arguments. -/
theorem C8_deterministic_witness :
    spv_to_constexpr (fun _ => some [1]) (chars "a.spv") (chars "a.h") (chars "v")
      = spv_to_constexpr (fun _ => some [1]) (chars "a.spv") (chars "a.h") (chars "v")
    ∧ generate_header (fun _ => some [1]) (chars "vert")
      = generate_header (fun _ => some [1]) (chars "vert") :=
  C8_deterministic (fun _ => some [1]) (fun _ => some [1])
    (chars "a.spv") (chars "a.h") (chars "v")
    (chars "a.spv") (chars "a.h") (chars "v")
    (chars "vert") (chars "vert") (fun _ => rfl) rfl rfl rfl rfl

/-- C10: in both transcoders the input is opened and read before the output
is opened: on a failed input open the run raises with no write and no output
event, and on success the read event precedes the write event. -/
theorem C10_input_before_output (fs : Fs) (input output var name : List Char) :
    (fs input = none →
        spv_to_constexpr fs input output var
          = ⟨[FileEvent.openRead input], [], some input⟩)
    ∧ (∀ d, fs input = some d →
        (spv_to_constexpr fs input output var).events
            = [FileEvent.openRead input, FileEvent.openWrite output]
          ∧ (spv_to_constexpr fs input output var).writes
            = [(output, wordOutput var d)])
    ∧ (fs (chars "shaders/" ++ name ++ chars ".spv") = none →
        generate_header fs name
          = ⟨[FileEvent.openRead (chars "shaders/" ++ name ++ chars ".spv")], [],
             some (chars "shaders/" ++ name ++ chars ".spv")⟩)
    ∧ (∀ d, fs (chars "shaders/" ++ name ++ chars ".spv") = some d →
        (generate_header fs name).events
          = [FileEvent.openRead (chars "shaders/" ++ name ++ chars ".spv"),
             FileEvent.openWrite (chars "shaders/" ++ name ++ chars ".h")]) := by
  refine ⟨?_, ?_, ?_, ?_⟩
  · intro h
    simp only [spv_to_constexpr, h]
  · intro d h
    simp [spv_to_constexpr, h]
  · intro h
    simp only [generate_header, h]
  · intro d h
    simp only [generate_header, h]

/-- C10 witness: the failed-input and successful-input behaviours at concrete
file systems and names. -/
theorem C10_input_before_output_witness :
    spv_to_constexpr (fun _ => none) (chars "a.spv") (chars "a.h") (chars "v")
      = ⟨[FileEvent.openRead (chars "a.spv")], [], some (chars "a.spv")⟩
    ∧ (spv_to_constexpr (fun _ => some []) (chars "a.spv") (chars "a.h")
        (chars "v")).events
      = [FileEvent.openRead (chars "a.spv"), FileEvent.openWrite (chars "a.h")] := by
  refine ⟨(C10_input_before_output (fun _ => none) (chars "a.spv") (chars "a.h")
    (chars "v") (chars "n")).1 rfl, ?_⟩
  exact ((C10_input_before_output (fun _ => some []) (chars "a.spv") (chars "a.h")
    (chars "v") (chars "n")).2.1 [] rfl).1
